import Mathlib

/-!
Shallow embedding of the in-memory state/session core of the LINE AI bot
(`src/index.js`, the variant with timestamped activity logs, and
`src/unnamed/part_000`). JavaScript strings are modelled at character
granularity (one Lean `Char` per code point); all string constants are
copied verbatim from the source. External capabilities (the generative
model call, the LINE reply/push transport, the profile lookup, and locale
date/time formatting) are passed in as explicit parameters, mirroring the
spec's treatment of them as opaque collaborators.
-/

namespace LineBot

/-- Conversation roles: the source stores turns as objects with
`role: "user"` or `role: "model"`. -/
inductive Role
  | user
  | model
deriving DecidableEq, Repr

/-- One conversation turn, `{ role, parts: [{ text }] }` in the source
(the single-element `parts` array is flattened to one text field). -/
structure Turn where
  role : Role
  text : String
deriving DecidableEq, Repr

/-- One normal-path exchange applied to a user's stored history
(src/index.js lines 250-252):
`history.push({role:"user",...}); history.push({role:"model",...});
if (history.length > 20) history.splice(0, history.length - 20);`.
`splice(0, k)` removes the first `k` elements, i.e. `List.drop k`. -/
def appendExchange (h : List Turn) (userText aiReply : String) : List Turn :=
  let h2 := h ++ [⟨Role.user, userText⟩, ⟨Role.model, aiReply⟩]
  if h2.length > 20 then h2.drop (h2.length - 20) else h2

/-- A sequence of consecutive successful exchanges for one user, starting
from the empty history created by `getHistory` (src/index.js lines 215-218). -/
def runExchanges (ps : List (String × String)) : List Turn :=
  ps.foldl (fun h p => appendExchange h p.1 p.2) []

/-- The turn list corresponding to a list of (userText, aiReply) exchanges:
each exchange contributes one user turn then one model turn. -/
def toTurns : List (String × String) → List Turn
  | [] => []
  | p :: ps => ⟨Role.user, p.1⟩ :: ⟨Role.model, p.2⟩ :: toTurns ps

/-- Role expected after consuming a turn of the given role. -/
def flipRole : Role → Role
  | Role.user => Role.model
  | Role.model => Role.user

/-- Checks that a turn list strictly alternates roles starting from the
expected role `r`, and has even "pair" structure: the list is exhausted
exactly when the next expected role is `user` again. -/
def altFrom : Role → List Turn → Bool
  | r, [] => r == Role.user
  | r, t :: ts => (t.role == r) && altFrom (flipRole r) ts

/-- Well-formed stored history: even length, alternating roles beginning
with a user turn (hence ending with a model turn when non-empty). -/
def wellFormedHistory (h : List Turn) : Bool := altFrom Role.user h

/-- One activity-log record (src/index.js lines 120-129):
`{ timestamp: Date, userId, displayName, userText, aiReply }`,
with the reply already truncated at insertion time. Timestamps are
modelled as integer epoch milliseconds (`Date.getTime()`). -/
structure LogEntry where
  timestamp : Int
  userId : String
  displayName : String
  userText : String
  aiReply : String
deriving DecidableEq, Repr

/-- JavaScript `s.slice(0, n)` modelled at character granularity. -/
def sliceChars (s : String) (n : Nat) : String := String.mk (s.data.take n)

/-- Reply truncation inside `addLog` (src/index.js line 128):
`aiReply.slice(0, 80) + (aiReply.length > 80 ? "..." : "")`. -/
def truncateReply (aiReply : String) : String :=
  sliceChars aiReply 80 ++ (if aiReply.length > 80 then "..." else "")

/-- Retention window: `7 * 24 * 60 * 60 * 1000` milliseconds
(src/index.js line 131). -/
def retentionMs : Int := 7 * 24 * 60 * 60 * 1000

/-- The eviction loop of `addLog` (src/index.js line 132):
`while (logs.length > 0 && logs[0].timestamp.getTime() < limit) logs.shift();`. -/
def trimOldLogs (limit : Int) : List LogEntry → List LogEntry
  | [] => []
  | e :: es => if e.timestamp < limit then trimOldLogs limit es else e :: es

/-- `addLog(userId, displayName, userText, aiReply)` (src/index.js lines
122-133): push a fresh entry stamped `now`, then evict entries older than
`now - 7 days` from the front. -/
def addLog (now : Int) (logs : List LogEntry)
    (userId displayName userText aiReply : String) : List LogEntry :=
  trimOldLogs (now - retentionMs)
    (logs ++ [{ timestamp := now, userId := userId, displayName := displayName,
                userText := userText, aiReply := truncateReply aiReply }])

/-- The fixed separator line used between report blocks and searched for
by the chunking loop: `"\n─────────\n"` (11 characters). -/
def sepLine : String := "\n─────────\n"

/-- The separator as a character list. -/
def sepChars : List Char := sepLine.data

/-- One rendered report block (src/index.js line 163); `fmtTime` stands
for the external locale formatter `formatTime`. -/
def entryBlock (fmtTime : Int → String) (l : LogEntry) : String :=
  "🕐 " ++ fmtTime l.timestamp ++ " · " ++ l.displayName ++ "\n💬 " ++
    l.userText ++ "\n🤖 " ++ l.aiReply

/-- `new Set(filteredLogs.map((l) => l.userId)).size` (src/index.js line 161). -/
def distinctUserCount (ls : List LogEntry) : Nat :=
  ((ls.map LogEntry.userId).dedup).length

/-- The "no conversation" notice of the empty report (src/index.js line 160). -/
def noConversationNotice : String := "ไม่มีการสนทนาครับ"

/-- `buildReport(filteredLogs, title)` (src/index.js lines 159-166). -/
def buildReport (fmtTime : Int → String) (ls : List LogEntry) (title : String) : String :=
  if ls.length = 0 then title ++ "\n\n" ++ noConversationNotice
  else
    title ++ "\n👥 " ++ toString (distinctUserCount ls) ++ " คน | 💬 " ++
      toString ls.length ++ " ข้อความ\n\n" ++
      String.intercalate sepLine (ls.map (entryBlock fmtTime))

/-- JavaScript `text.lastIndexOf(sep, pos)`: the largest start index
`i ≤ pos` at which `sep` occurs in `text`, or `none` (JS `-1`). -/
def lastIndexOfLe (text sep : List Char) : Nat → Option Nat
  | 0 => if sep.isPrefixOf text then some 0 else none
  | i + 1 =>
      if sep.isPrefixOf (text.drop (i + 1)) then some (i + 1)
      else lastIndexOfLe text sep i

/-- The transport-chunking loop of `pushToAdmin` (src/index.js lines
174-180):
`while (text.length > 4800) \x7b const cut = text.lastIndexOf("\n─────────\n", 4800);
chunks.push(text.slice(0, cut > 0 ? cut : 4800));
text = text.slice(cut > 0 ? cut + 11 : 4800); \x7d chunks.push(text);`.
Note the guard is `cut > 0`: a separator occurrence at index 0 (and the
not-found value `-1`) both select the hard cut at 4800. -/
def splitChunks (text : List Char) : List (List Char) :=
  if _h : 4800 < text.length then
    match lastIndexOfLe text sepChars 4800 with
    | some c =>
        if 0 < c then text.take c :: splitChunks (text.drop (c + 11))
        else text.take 4800 :: splitChunks (text.drop 4800)
    | none => text.take 4800 :: splitChunks (text.drop 4800)
  else [text]
termination_by text.length
decreasing_by
  all_goals simp only [List.length_drop]; omega

/-- The same loop, additionally tagging each produced chunk with whether a
separator was removed after it (a boundary cut), so that the round-trip
reconstruction of the original text can be stated. -/
def splitChunksTagged (text : List Char) : List (List Char × Bool) :=
  if _h : 4800 < text.length then
    match lastIndexOfLe text sepChars 4800 with
    | some c =>
        if 0 < c then (text.take c, true) :: splitChunksTagged (text.drop (c + 11))
        else (text.take 4800, false) :: splitChunksTagged (text.drop 4800)
    | none => (text.take 4800, false) :: splitChunksTagged (text.drop 4800)
  else [(text, false)]
termination_by text.length
decreasing_by
  all_goals simp only [List.length_drop]; omega

/-- Concatenate tagged chunks, re-inserting the separator after each chunk
that was produced by a boundary cut. -/
def reassemble : List (List Char × Bool) → List Char
  | [] => []
  | (c, withSep) :: rest => c ++ (if withSep then sepChars else []) ++ reassemble rest

/-- `splitForTransport` of the spec: the chunking loop applied to a string. -/
def splitForTransport (text : String) : List String :=
  (splitChunks text.data).map String.mk

/-- The push loop of `pushToAdmin` (src/index.js lines 182-191): chunks are
pushed in order through the outbound push capability; an exception from any
single push aborts the rest (there is no try/catch in `pushToAdmin`). -/
def pushChunks {ε : Type} (push : String → Except ε Unit) : List String → Except ε Unit
  | [] => Except.ok ()
  | c :: cs => (push c).bind (fun _ => pushChunks push cs)

/-- The trailing reporting window: `24 * 60 * 60 * 1000` milliseconds. -/
def dailyWindowMs : Int := 24 * 60 * 60 * 1000

/-- The body of the daily-report timer callback (src/index.js lines
201-207): build the report over the trailing 24-hour window, push it to the
admin, then call `scheduleDailyReport()` again. The `Except` monad models
exception propagation of the async callback: `await pushToAdmin(report)`
has no surrounding try/catch, so a push failure aborts the callback before
the rescheduling call. The returned Bool is true exactly when
`scheduleDailyReport()` was reached (the timer was re-armed). -/
def dailyReportTick {ε : Type} (logs : List LogEntry) (now : Int)
    (fmtTime : Int → String) (dateStr : String)
    (push : String → Except ε Unit) : Except ε (String × Bool) :=
  let since := now - dailyWindowMs
  let todayLogs := logs.filter (fun l => since ≤ l.timestamp)
  let report := buildReport fmtTime todayLogs ("📊 รายงานประจำวัน " ++ dateStr)
  (pushChunks push (splitForTransport report)).bind (fun _ => Except.ok (report, true))

/-- `getDisplayName(userId)` (src/index.js lines 137-149). The name cache
is an association list (newest binding first, as `Map.set` overwrites);
`lookupResult` is the outcome of the external profile fetch: `Except.error`
models a thrown exception, `Except.ok none` a response whose `displayName`
is absent or empty (falsy, so `data.displayName || userId` picks the id). -/
def getDisplayName (cache : List (String × String)) (userId : String)
    (lookupResult : Except Unit (Option String)) : String × List (String × String) :=
  match cache.lookup userId with
  | some n => (n, cache)
  | none =>
      match lookupResult with
      | Except.ok dn => (dn.getD userId, (userId, dn.getD userId) :: cache)
      | Except.error _ => (userId, cache)

/-- JavaScript `text.trim()` at character granularity: whitespace removed
from both ends. -/
def trimChars (s : String) : String :=
  String.mk (((s.data.dropWhile Char.isWhitespace).reverse.dropWhile
    Char.isWhitespace).reverse)

/-- The mutable state owned by the dispatcher: per-user conversation
history (`chatHistory` map, total with default `[]` as created lazily by
`getHistory`) and the activity log (`logs`). -/
structure BotState where
  chatHistory : String → List Turn
  logs : List LogEntry

/-- One inbound webhook event (the fields the dispatcher reads). -/
structure InboundEvent where
  eventType : String
  messageType : String
  userId : String
  text : String
  replyToken : String

/-- The fixed localized apology sent on a model-call failure
(src/index.js line 259). -/
def apologyText : String := "ขอโทษนะครับ เกิดข้อผิดพลาด ลองใหม่อีกครั้งได้เลยครับ"

/-- The admin trigger phrase (src/index.js line 235). -/
def adminTrigger : String := "รายงาน"

/-- The per-event body of the webhook dispatcher (src/index.js lines
224-261). Returns the new state, the reply sent for this event (none when
the event is skipped), and whether the model capability was invoked.
External collaborators are parameters: `modelCall` is
`model.startChat(\x7bhistory\x7d)` followed by `chat.sendMessage(userText)`
(an exception modelled as `Except.error`), `displayName` the result of the
never-throwing `getDisplayName`, `fmtTime` / `dateStr` the locale
formatters. -/
def handleEvent (adminId : String) (now : Int) (fmtTime : Int → String)
    (dateStr : String) (modelCall : List Turn → String → Except Unit String)
    (displayName : String) (st : BotState) (ev : InboundEvent) :
    BotState × Option String × Bool :=
  if ev.eventType ≠ "message" ∨ ev.messageType ≠ "text" then (st, none, false)
  else
    let userText := trimChars ev.text
    if ev.userId = adminId ∧ userText = adminTrigger then
      let since := now - dailyWindowMs
      let recent := st.logs.filter (fun l => since ≤ l.timestamp)
      let report := buildReport fmtTime recent ("📊 รายงานย้อนหลัง 24 ชม. (" ++ dateStr ++ ")")
      (st, some (sliceChars report 4800), false)
    else
      match modelCall (st.chatHistory ev.userId) userText with
      | Except.ok aiReply =>
          ({ chatHistory := fun u =>
               if u = ev.userId then appendExchange (st.chatHistory ev.userId) userText aiReply
               else st.chatHistory u,
             logs := addLog now st.logs ev.userId displayName userText aiReply },
           some aiReply, true)
      | Except.error _ => (st, some apologyText, true)

/-! ### Lemmas: conversation history -/

/-- Unfolded form of `appendExchange`: the result is always the appended
list with `length + 2 - 20` oldest turns dropped from the front
(a drop of `0` when the cap is not exceeded). -/
theorem appendExchange_eq (h : List Turn) (u m : String) :
    appendExchange h u m =
      (h ++ [(⟨Role.user, u⟩ : Turn), ⟨Role.model, m⟩]).drop (h.length + 2 - 20) := by
  have hlen : (h ++ [(⟨Role.user, u⟩ : Turn), ⟨Role.model, m⟩]).length = h.length + 2 := by
    simp
  simp only [appendExchange, hlen]
  split_ifs with hl
  · rfl
  · have hz : h.length + 2 - 20 = 0 := by omega
    rw [hz, List.drop_zero]

theorem toTurns_append (l₁ l₂ : List (String × String)) :
    toTurns (l₁ ++ l₂) = toTurns l₁ ++ toTurns l₂ := by
  induction l₁ with
  | nil => rfl
  | cons p ps ih => simp [toTurns, ih]

theorem toTurns_length (l : List (String × String)) :
    (toTurns l).length = 2 * l.length := by
  induction l with
  | nil => rfl
  | cons p ps ih => simp [toTurns, ih]; omega

theorem runExchanges_concat (ps : List (String × String)) (p : String × String) :
    runExchanges (ps ++ [p]) = appendExchange (runExchanges ps) p.1 p.2 := by
  simp [runExchanges, List.foldl_append]

/-- After any sequence of exchanges the stored history is exactly the
turn rendering of the 10 most recent exchanges (all of them when there
are at most 10). -/
theorem runExchanges_eq_lastTen (ps : List (String × String)) :
    runExchanges ps = toTurns (ps.drop (ps.length - 10)) := by
  induction ps using List.reverseRecOn with
  | nil => rfl
  | append_singleton qs q ih =>
    rw [runExchanges_concat, ih]
    by_cases hle : qs.length ≤ 9
    · have h0 : qs.length - 10 = 0 := by omega
      have h1 : (qs ++ [q]).length - 10 = 0 := by simp; omega
      rw [h0, h1, List.drop_zero, List.drop_zero, appendExchange_eq]
      have hz : (toTurns qs).length + 2 - 20 = 0 := by
        rw [toTurns_length]; omega
      rw [hz, List.drop_zero, toTurns_append]
      rfl
    · have h10 : 10 ≤ qs.length := by omega
      have hd : (qs.drop (qs.length - 10)).length = 10 := by
        rw [List.length_drop]; omega
      obtain ⟨e, d', hed⟩ : ∃ e d', qs.drop (qs.length - 10) = e :: d' := by
        cases hq : qs.drop (qs.length - 10) with
        | nil => rw [hq] at hd; simp at hd
        | cons e d' => exact ⟨e, d', rfl⟩
      rw [appendExchange_eq]
      have hcount : (toTurns (qs.drop (qs.length - 10))).length + 2 - 20 = 2 := by
        rw [toTurns_length, hd]
      rw [hcount]
      have hpair : toTurns (qs.drop (qs.length - 10)) ++
          [(⟨Role.user, q.1⟩ : Turn), ⟨Role.model, q.2⟩] =
          toTurns (qs.drop (qs.length - 10) ++ [q]) := by
        rw [toTurns_append]; rfl
      rw [hpair, hed]
      have hstep : toTurns ((e :: d') ++ [q]) =
          ⟨Role.user, e.1⟩ :: ⟨Role.model, e.2⟩ :: toTurns (d' ++ [q]) := rfl
      rw [hstep]
      have hdrop2 : ((⟨Role.user, e.1⟩ : Turn) :: ⟨Role.model, e.2⟩ ::
          toTurns (d' ++ [q])).drop 2 = toTurns (d' ++ [q]) := rfl
      rw [hdrop2]
      have hd' : d' = qs.drop (qs.length - 9) := by
        have ht := List.tail_drop qs (qs.length - 10)
        rw [hed] at ht
        simp at ht
        rw [ht]
        congr 1
        omega
      have hr : (qs ++ [q]).drop ((qs ++ [q]).length - 10) =
          qs.drop (qs.length - 9) ++ [q] := by
        have hlen : (qs ++ [q]).length = qs.length + 1 := by simp
        rw [hlen]
        have h1 : qs.length + 1 - 10 = qs.length - 9 := by omega
        rw [h1, List.drop_append_of_le_length (by omega)]
      rw [hd', hr]

/-! ### Lemmas: role alternation -/

theorem altFrom_length_mod (l : List Turn) : ∀ r, altFrom r l = true →
    l.length % 2 = (if r = Role.user then 0 else 1) := by
  induction l with
  | nil =>
    intro r hr
    simp [altFrom] at hr
    simp [hr]
  | cons t ts ih =>
    intro r hr
    simp [altFrom] at hr
    have hts := ih (flipRole r) hr.2
    cases r <;> simp [flipRole] at hts ⊢ <;> omega

theorem altFrom_append_pair (u m : String) : ∀ (l : List Turn) (r : Role),
    altFrom r l = true →
    altFrom r (l ++ [(⟨Role.user, u⟩ : Turn), ⟨Role.model, m⟩]) = true := by
  intro l
  induction l with
  | nil =>
    intro r hr
    simp [altFrom] at hr
    simp [hr, altFrom, flipRole]
  | cons t ts ih =>
    intro r hr
    simp [altFrom] at hr ⊢
    exact ⟨hr.1, ih (flipRole r) hr.2⟩

theorem altFrom_drop_two (l : List Turn) (h : altFrom Role.user l = true) :
    altFrom Role.user (l.drop 2) = true := by
  cases l with
  | nil => simpa using h
  | cons t1 ts =>
    cases ts with
    | nil => simp [altFrom, flipRole] at h
    | cons t2 ts' =>
      simp [altFrom, flipRole] at h
      simpa using h.2.2

theorem altFrom_drop_even (j : Nat) : ∀ (l : List Turn),
    altFrom Role.user l = true → altFrom Role.user (l.drop (2 * j)) = true := by
  induction j with
  | zero => intro l h; simpa using h
  | succ k ih =>
    intro l h
    have h2 := altFrom_drop_two l h
    have h3 := ih (l.drop 2) h2
    rw [List.drop_drop] at h3
    have h4 : 2 + 2 * k = 2 * (k + 1) := by omega
    rwa [h4] at h3

theorem wellFormed_appendExchange (h : List Turn) (u m : String)
    (hw : wellFormedHistory h = true) :
    wellFormedHistory (appendExchange h u m) = true := by
  unfold wellFormedHistory at hw ⊢
  rw [appendExchange_eq]
  have hap := altFrom_append_pair u m h Role.user hw
  have hev : h.length % 2 = 0 := by
    have := altFrom_length_mod h Role.user hw
    simpa using this
  obtain ⟨j, hj⟩ : ∃ j, h.length + 2 - 20 = 2 * j := ⟨(h.length + 2 - 20) / 2, by omega⟩
  rw [hj]
  exact altFrom_drop_even j _ hap

theorem flipRole_flipRole (r : Role) : flipRole (flipRole r) = r := by
  cases r <;> rfl

theorem altFrom_get (l : List Turn) : ∀ (r : Role) (i : Nat) (hi : i < l.length),
    altFrom r l = true →
    (l.get ⟨i, hi⟩).role = (if i % 2 = 0 then r else flipRole r) := by
  induction l with
  | nil => intro r i hi; exact absurd hi (by simp)
  | cons t ts ih =>
    intro r i hi hr
    simp [altFrom] at hr
    cases i with
    | zero => simpa using hr.1
    | succ k =>
      have hk := ih (flipRole r) k (by simpa using hi) hr.2
      have hget : ((t :: ts).get ⟨k + 1, hi⟩) = ts.get ⟨k, by simpa using hi⟩ := rfl
      rw [hget, hk]
      by_cases hpar : k % 2 = 0
      · rw [if_pos hpar, if_neg (by omega)]
      · rw [if_neg hpar, if_pos (by omega), flipRole_flipRole]

theorem altFrom_getLast (l : List Turn) : ∀ r, l ≠ [] → altFrom r l = true →
    (l.getLast?).map Turn.role = some Role.model := by
  induction l with
  | nil => intro r hne; exact absurd rfl hne
  | cons t ts ih =>
    intro r _ hr
    simp [altFrom] at hr
    cases ts with
    | nil =>
      have h2 := hr.2
      simp [altFrom] at h2
      have hrm : r = Role.model := by
        cases r
        · simp [flipRole] at h2
        · rfl
      simp [List.getLast?, hr.1, hrm]
    | cons t2 ts' =>
      rw [List.getLast?_cons_cons]
      exact ih (flipRole r) (by simp) hr.2

/-- C1: for every user and every sequence of `appendExchange` operations,
the stored history length stays at most 20; an overflowing append drops
`length + 2 - 20` oldest turns from the front, an even count (whole
user/model pairs) whenever the history has even length; and after 25
consecutive exchanges the history has length exactly 20 and is precisely
the turn rendering of the 10 most recent exchanges in order. -/
theorem conversation_history_bounded (ps : List (String × String))
    (h25 : ps.length = 25) :
    (∀ (h : List Turn) (u m : String), h.length ≤ 20 →
        (appendExchange h u m).length ≤ 20) ∧
    (∀ (h : List Turn) (u m : String), appendExchange h u m =
        (h ++ [(⟨Role.user, u⟩ : Turn), ⟨Role.model, m⟩]).drop (h.length + 2 - 20)) ∧
    (∀ (h : List Turn), h.length % 2 = 0 → (h.length + 2 - 20) % 2 = 0) ∧
    (runExchanges ps).length = 20 ∧
    runExchanges ps = toTurns (ps.drop 15) := by
  refine ⟨?_, ?_, ?_, ?_, ?_⟩
  · intro h u m hle
    rw [appendExchange_eq, List.length_drop]
    simp
    omega
  · intro h u m
    exact appendExchange_eq h u m
  · intro h hev
    omega
  · rw [runExchanges_eq_lastTen, toTurns_length, List.length_drop, h25]
  · rw [runExchanges_eq_lastTen, h25]

/-- Witness for C1 at a concrete sequence of 25 exchanges. -/
theorem conversation_history_bounded_witness :
    (runExchanges (List.replicate 25 ("q", "a"))).length = 20 ∧
      runExchanges (List.replicate 25 ("q", "a")) =
        toTurns ((List.replicate 25 ("q", "a")).drop 15) :=
  (conversation_history_bounded (List.replicate 25 ("q", "a")) (by decide)).2.2.2

/-- C9 (implicit): the stored history always has even length with strictly
alternating roles, beginning with a user turn and ending with a model
turn: the invariant `wellFormedHistory` holds for the empty history and is
preserved by every `appendExchange` (the front trim always removes an even
number of turns), and it entails even length, the user/model role at each
even/odd index, and a model-role final turn when non-empty. -/
theorem history_alternation_invariant :
    (wellFormedHistory [] = true) ∧
    (∀ (h : List Turn) (u m : String), wellFormedHistory h = true →
        wellFormedHistory (appendExchange h u m) = true) ∧
    (∀ (h : List Turn), wellFormedHistory h = true →
        h.length % 2 = 0 ∧
        (∀ (i : Nat) (hi : i < h.length), (h.get ⟨i, hi⟩).role =
            (if i % 2 = 0 then Role.user else Role.model)) ∧
        (h ≠ [] → (h.getLast?).map Turn.role = some Role.model)) := by
  refine ⟨by decide, ?_, ?_⟩
  · intro h u m hw
    exact wellFormed_appendExchange h u m hw
  · intro h hw
    refine ⟨?_, ?_, ?_⟩
    · have := altFrom_length_mod h Role.user hw
      simpa using this
    · intro i hi
      have := altFrom_get h Role.user i hi hw
      simpa [flipRole] using this
    · intro hne
      exact altFrom_getLast h Role.user hne hw

/-- Witness for C9: the invariant holds after one exchange on the empty
history. -/
theorem history_alternation_invariant_witness :
    wellFormedHistory (appendExchange [] "q" "a") = true :=
  history_alternation_invariant.2.1 [] "q" "a" (by decide)

/-! ### Lemmas: activity log -/

theorem trimOldLogs_suffix (limit : Int) (l : List LogEntry) :
    ∃ k, trimOldLogs limit l = l.drop k := by
  induction l with
  | nil => exact ⟨0, rfl⟩
  | cons e es ih =>
    by_cases he : e.timestamp < limit
    · obtain ⟨k, hk⟩ := ih
      exact ⟨k + 1, by simp [trimOldLogs, he, hk]⟩
    · exact ⟨0, by simp [trimOldLogs, he]⟩

theorem trimOldLogs_bound (limit : Int) (n : LogEntry) (hn : limit ≤ n.timestamp) :
    ∀ (l : List LogEntry),
      List.Pairwise (fun a b => a.timestamp ≤ b.timestamp) l →
      ∀ e ∈ trimOldLogs limit (l ++ [n]), limit ≤ e.timestamp := by
  intro l
  induction l with
  | nil =>
    intro _ e he
    simp [trimOldLogs, not_lt.mpr hn] at he
    rw [he]
    exact hn
  | cons a as ih =>
    intro hp e he
    rw [List.pairwise_cons] at hp
    by_cases ha : a.timestamp < limit
    · rw [List.cons_append] at he
      simp only [trimOldLogs, if_pos ha] at he
      exact ih hp.2 e he
    · rw [List.cons_append] at he
      simp only [trimOldLogs, if_neg ha] at he
      rcases List.mem_cons.mp he with rfl | he2
      · omega
      · rcases List.mem_append.mp he2 with hin | hlast
        · have := hp.1 e hin
          omega
        · have : e = n := by simpa using hlast
          rw [this]
          exact hn

/-- C2: under the precondition that the stored entries are in
non-decreasing timestamp order, after `addLog` completes no stored entry is
older than `now` minus the 7-day retention window, the eviction only
removes a prefix (the result is a suffix of the appended sequence), and
any directly inserted entry older than the window is gone after the next
append. -/
theorem activity_log_retention (now : Int) (logs : List LogEntry)
    (uid dn ut ar : String)
    (hsorted : List.Pairwise (fun a b => a.timestamp ≤ b.timestamp) logs) :
    (∀ e ∈ addLog now logs uid dn ut ar, now - retentionMs ≤ e.timestamp) ∧
    (∃ k, addLog now logs uid dn ut ar =
        (logs ++ [({ timestamp := now, userId := uid, displayName := dn,
                     userText := ut, aiReply := truncateReply ar } : LogEntry)]).drop k) ∧
    (∀ e ∈ logs, e.timestamp < now - retentionMs →
        e ∉ addLog now logs uid dn ut ar) := by
  have hwin : now - retentionMs ≤ now := by
    simp only [retentionMs]
    omega
  refine ⟨?_, ?_, ?_⟩
  · intro e he
    exact trimOldLogs_bound (now - retentionMs)
      { timestamp := now, userId := uid, displayName := dn,
        userText := ut, aiReply := truncateReply ar } hwin logs hsorted e he
  · exact trimOldLogs_suffix _ _
  · intro e _ hold hmem
    have := trimOldLogs_bound (now - retentionMs)
      { timestamp := now, userId := uid, displayName := dn,
        userText := ut, aiReply := truncateReply ar } hwin logs hsorted e hmem
    omega

/-- Witness for C2: a week-old entry inserted directly is evicted by the
next append. -/
theorem activity_log_retention_witness :
    (⟨0, "u", "n", "t", "r"⟩ : LogEntry) ∉
      addLog 700000000000 [⟨0, "u", "n", "t", "r"⟩] "u2" "n2" "hi" "ok" :=
  (activity_log_retention 700000000000 [⟨0, "u", "n", "t", "r"⟩] "u2" "n2" "hi" "ok"
    (by simp)).2.2 ⟨0, "u", "n", "t", "r"⟩ (by simp) (by decide)

/-- C4: `buildReport` of an empty entry list is the title followed by the
"no conversation" notice; of a non-empty list it is the title, the count
of distinct `userId` values, the total entry count, and the three-line
entry blocks joined by the fixed separator line in original order; and
the rendered user count is exactly the number of distinct `userId`
values. -/
theorem buildReport_spec (fmtTime : Int → String) (ls : List LogEntry)
    (title : String) (hne : ls ≠ []) :
    buildReport fmtTime [] title = title ++ "\n\n" ++ noConversationNotice ∧
    buildReport fmtTime ls title =
      title ++ "\n👥 " ++ toString (distinctUserCount ls) ++ " คน | 💬 " ++
        toString ls.length ++ " ข้อความ\n\n" ++
        String.intercalate sepLine (ls.map (entryBlock fmtTime)) ∧
    distinctUserCount ls = (ls.map LogEntry.userId).toFinset.card := by
  refine ⟨rfl, ?_, ?_⟩
  · rw [buildReport, if_neg (by simpa using hne)]
  · rw [distinctUserCount, List.card_toFinset]

/-- Witness for C4 at a one-entry log. -/
theorem buildReport_spec_witness :
    buildReport (fun _ => "T0") [⟨0, "u", "n", "hi", "ok"⟩] "T" =
      "T" ++ "\n👥 " ++ toString (distinctUserCount [⟨0, "u", "n", "hi", "ok"⟩]) ++
        " คน | 💬 " ++ toString ([(⟨0, "u", "n", "hi", "ok"⟩ : LogEntry)]).length ++
        " ข้อความ\n\n" ++ String.intercalate sepLine
          ([(⟨0, "u", "n", "hi", "ok"⟩ : LogEntry)].map (entryBlock (fun _ => "T0"))) :=
  (buildReport_spec (fun _ => "T0") [⟨0, "u", "n", "hi", "ok"⟩] "T" (by simp)).2.1

/-- C10 (implicit): `getDisplayName` writes the name cache only when the
profile lookup returns a response (caching the returned display name, or
the raw id when the response lacks one); a thrown lookup returns the raw
id without touching the cache, so a later call for the same id retries
the lookup instead of reusing a cached fallback. -/
theorem getDisplayName_cache_policy (cache : List (String × String))
    (userId : String) (dn : Option String) (r2 : Except Unit (Option String))
    (hmiss : cache.lookup userId = none) :
    getDisplayName cache userId (Except.error ()) = (userId, cache) ∧
    getDisplayName cache userId (Except.ok dn) =
      (dn.getD userId, (userId, dn.getD userId) :: cache) ∧
    (getDisplayName cache userId (Except.error ())).2.lookup userId = none ∧
    getDisplayName (getDisplayName cache userId (Except.error ())).2 userId r2 =
      getDisplayName cache userId r2 := by
  simp only [getDisplayName, hmiss]
  exact ⟨trivial, trivial, trivial, trivial⟩

/-- Witness for C10: a failed lookup on an empty cache returns the raw id
and leaves the cache empty. -/
theorem getDisplayName_cache_policy_witness :
    getDisplayName [] "u1" (Except.error ()) = ("u1", []) :=
  (getDisplayName_cache_policy [] "u1" none (Except.error ()) rfl).1

/-- C5: on the normal conversation path, when the model capability raises,
the dispatcher replies with the fixed localized apology and leaves both
the sender's conversation history and the activity log unchanged (the
returned state is the input state). -/
theorem model_failure_no_mutation (adminId : String) (now : Int)
    (fmtTime : Int → String) (dateStr : String)
    (modelCall : List Turn → String → Except Unit String) (displayName : String)
    (st : BotState) (ev : InboundEvent)
    (hmsg : ev.eventType = "message") (htxt : ev.messageType = "text")
    (hnotadmin : ¬ (ev.userId = adminId ∧ trimChars ev.text = adminTrigger))
    (hfail : modelCall (st.chatHistory ev.userId) (trimChars ev.text) =
      Except.error ()) :
    handleEvent adminId now fmtTime dateStr modelCall displayName st ev =
      (st, some apologyText, true) := by
  simp only [handleEvent, hmsg, htxt]
  rw [if_neg (by simp), if_neg hnotadmin, hfail]

/-- Witness for C5 at a concrete failing model call. -/
theorem model_failure_no_mutation_witness :
    handleEvent "admin" 0 (fun _ => "") "d" (fun _ _ => Except.error ()) "name"
      ⟨fun _ => [], []⟩ ⟨"message", "text", "u1", "hello", "rt"⟩ =
      (⟨fun _ => [], []⟩, some apologyText, true) :=
  model_failure_no_mutation "admin" 0 (fun _ => "") "d" (fun _ _ => Except.error ())
    "name" ⟨fun _ => [], []⟩ ⟨"message", "text", "u1", "hello", "rt"⟩ rfl rfl
    (by decide) rfl

/-- C6: a text event whose trimmed body is the admin trigger phrase, sent
by the admin identity, is answered with the report over exactly the
entries of the trailing 24-hour window, truncated to at most 4800
characters; the state is returned unchanged and the model is not called. -/
theorem admin_report_branch (adminId : String) (now : Int) (fmtTime : Int → String)
    (dateStr : String) (modelCall : List Turn → String → Except Unit String)
    (displayName : String) (st : BotState) (ev : InboundEvent)
    (hmsg : ev.eventType = "message") (htxt : ev.messageType = "text")
    (hadmin : ev.userId = adminId) (htrig : trimChars ev.text = adminTrigger) :
    handleEvent adminId now fmtTime dateStr modelCall displayName st ev =
      (st, some (sliceChars (buildReport fmtTime
          (st.logs.filter (fun l => now - dailyWindowMs ≤ l.timestamp))
          ("📊 รายงานย้อนหลัง 24 ชม. (" ++ dateStr ++ ")")) 4800), false) ∧
    (sliceChars (buildReport fmtTime
        (st.logs.filter (fun l => now - dailyWindowMs ≤ l.timestamp))
        ("📊 รายงานย้อนหลัง 24 ชม. (" ++ dateStr ++ ")")) 4800).length ≤ 4800 ∧
    (∀ l : LogEntry, l ∈ st.logs.filter (fun l => now - dailyWindowMs ≤ l.timestamp) ↔
        l ∈ st.logs ∧ now - dailyWindowMs ≤ l.timestamp) := by
  refine ⟨?_, ?_, ?_⟩
  · simp only [handleEvent, hmsg, htxt]
    rw [if_neg (by simp), if_pos ⟨hadmin, htrig⟩]
  · have hlen : ∀ (t : String) (n : Nat), (sliceChars t n).length ≤ n := by
      intro t n
      have : (sliceChars t n).length = (t.data.take n).length := rfl
      rw [this, List.length_take]
      exact Nat.min_le_left n t.data.length
    exact hlen _ 4800
  · intro l
    simp [List.mem_filter]

/-- Witness for C6: the admin trigger on an empty log replies with the
truncated empty-window report and makes no model call. -/
theorem admin_report_branch_witness :
    handleEvent "admin" 0 (fun _ => "") "d" (fun _ _ => Except.error ()) "name"
      ⟨fun _ => [], []⟩ ⟨"message", "text", "admin", "รายงาน", "rt"⟩ =
      (⟨fun _ => [], []⟩, some (sliceChars (buildReport (fun _ => "")
          (([] : List LogEntry).filter (fun l => 0 - dailyWindowMs ≤ l.timestamp))
          ("📊 รายงานย้อนหลัง 24 ชม. (" ++ "d" ++ ")")) 4800), false) :=
  (admin_report_branch "admin" 0 (fun _ => "") "d" (fun _ _ => Except.error ()) "name"
    ⟨fun _ => [], []⟩ ⟨"message", "text", "admin", "รายงาน", "rt"⟩ rfl rfl rfl
    (by decide)).1

/-- C7 (amended): image message events are ignored by the dispatcher: no
reply is sent, the model is not called, and neither the conversation
store nor the activity log changes (the guard
`event.message.type !== "text"` skips every non-text message; there is no
pending-attachment mechanism in the code, so a following text message is
handled as an ordinary history-seeded text request). -/
theorem image_event_ignored (adminId : String) (now : Int) (fmtTime : Int → String)
    (dateStr : String) (modelCall : List Turn → String → Except Unit String)
    (displayName : String) (st : BotState) (ev : InboundEvent)
    (himg : ev.messageType = "image") :
    handleEvent adminId now fmtTime dateStr modelCall displayName st ev =
      (st, none, false) := by
  simp only [handleEvent, himg]
  rw [if_pos (Or.inr (by decide))]

/-- C7 counterexample: a concrete image event produces no reply at all and
leaves the state untouched, whereas the claim requires the dispatcher to
store a pending attachment and reply with an acknowledgment prompt; no
pending-attachment store exists in the code. -/
theorem image_event_no_reply :
    handleEvent "admin" 0 (fun _ => "") "d" (fun _ _ => Except.error ()) "name"
      ⟨fun _ => [], []⟩ ⟨"message", "image", "u1", "", "rt"⟩ =
      (⟨fun _ => [], []⟩, none, false) := rfl

/-- Witness for C7 (amended) at a concrete image event. -/
theorem image_event_ignored_witness :
    handleEvent "a2" 1 (fun _ => "t") "d2" (fun _ _ => Except.ok "r") "n2"
      ⟨fun _ => [], []⟩ ⟨"message", "image", "u2", "x", "rt2"⟩ =
      (⟨fun _ => [], []⟩, none, false) :=
  image_event_ignored "a2" 1 (fun _ => "t") "d2" (fun _ _ => Except.ok "r") "n2"
    ⟨fun _ => [], []⟩ ⟨"message", "image", "u2", "x", "rt2"⟩ rfl

/-! ### Lemmas: transport chunking -/

theorem lastIndexOfLe_le (text sep : List Char) :
    ∀ (pos c : Nat), lastIndexOfLe text sep pos = some c → c ≤ pos := by
  intro pos
  induction pos with
  | zero =>
    intro c h
    rw [lastIndexOfLe] at h
    by_cases hp : sep.isPrefixOf text
    · rw [if_pos hp] at h
      simp at h
      omega
    · rw [if_neg hp] at h
      exact absurd h (by simp)
  | succ k ih =>
    intro c h
    rw [lastIndexOfLe] at h
    by_cases hp : sep.isPrefixOf (text.drop (k + 1))
    · rw [if_pos hp] at h
      simp at h
      omega
    · rw [if_neg hp] at h
      have := ih c h
      omega

theorem lastIndexOfLe_isPrefixOf (text sep : List Char) :
    ∀ (pos c : Nat), lastIndexOfLe text sep pos = some c →
      sep.isPrefixOf (text.drop c) = true := by
  intro pos
  induction pos with
  | zero =>
    intro c h
    rw [lastIndexOfLe] at h
    by_cases hp : sep.isPrefixOf text
    · rw [if_pos hp] at h
      simp at h
      rw [← h, List.drop_zero]
      exact hp
    · rw [if_neg hp] at h
      exact absurd h (by simp)
  | succ k ih =>
    intro c h
    rw [lastIndexOfLe] at h
    by_cases hp : sep.isPrefixOf (text.drop (k + 1))
    · rw [if_pos hp] at h
      simp at h
      rw [← h]
      exact hp
    · rw [if_neg hp] at h
      exact ih c h

theorem lastIndexOfLe_found_zero (text sep : List Char)
    (h0 : sep.isPrefixOf text = true) :
    ∀ pos, (∀ i, 1 ≤ i → i ≤ pos → ¬ (sep.isPrefixOf (text.drop i) = true)) →
      lastIndexOfLe text sep pos = some 0 := by
  intro pos
  induction pos with
  | zero =>
    intro _
    rw [lastIndexOfLe, if_pos h0]
  | succ k ih =>
    intro hno
    rw [lastIndexOfLe, if_neg (hno (k + 1) (by omega) (by omega))]
    exact ih (fun i h1 h2 => hno i h1 (by omega))

theorem isPrefixOf_decomp (l : List Char) : ∀ (t : List Char),
    l.isPrefixOf t = true → t = l ++ t.drop l.length := by
  induction l with
  | nil =>
    intro t _
    simp
  | cons a as ih =>
    intro t h
    cases t with
    | nil => simp [List.isPrefixOf] at h
    | cons b bs =>
      simp only [List.isPrefixOf, Bool.and_eq_true, beq_iff_eq] at h
      have hb := ih bs h.2
      simp only [List.length_cons, List.cons_append, List.drop_succ_cons]
      rw [h.1]
      exact congrArg (fun x => b :: x) hb

theorem isPrefixOf_self_append (l t : List Char) : l.isPrefixOf (l ++ t) = true := by
  induction l with
  | nil => simp [List.isPrefixOf]
  | cons a as ih => simp [List.isPrefixOf, ih]

theorem splitChunks_small (text : List Char) (h : ¬ 4800 < text.length) :
    splitChunks text = [text] := by
  rw [splitChunks.eq_def, dif_neg h]

theorem splitChunks_cut (text : List Char) (c : Nat) (hbig : 4800 < text.length)
    (hq : lastIndexOfLe text sepChars 4800 = some c) (hc : 0 < c) :
    splitChunks text = text.take c :: splitChunks (text.drop (c + 11)) := by
  rw [splitChunks.eq_def, dif_pos hbig, hq]
  simp [hc]

theorem splitChunks_hardZero (text : List Char) (hbig : 4800 < text.length)
    (hq : lastIndexOfLe text sepChars 4800 = some 0) :
    splitChunks text = text.take 4800 :: splitChunks (text.drop 4800) := by
  rw [splitChunks.eq_def, dif_pos hbig, hq]
  simp

theorem splitChunks_hardNone (text : List Char) (hbig : 4800 < text.length)
    (hq : lastIndexOfLe text sepChars 4800 = none) :
    splitChunks text = text.take 4800 :: splitChunks (text.drop 4800) := by
  rw [splitChunks.eq_def, dif_pos hbig, hq]

theorem splitChunksTagged_small (text : List Char) (h : ¬ 4800 < text.length) :
    splitChunksTagged text = [(text, false)] := by
  rw [splitChunksTagged.eq_def, dif_neg h]

theorem splitChunksTagged_cut (text : List Char) (c : Nat)
    (hbig : 4800 < text.length)
    (hq : lastIndexOfLe text sepChars 4800 = some c) (hc : 0 < c) :
    splitChunksTagged text =
      (text.take c, true) :: splitChunksTagged (text.drop (c + 11)) := by
  rw [splitChunksTagged.eq_def, dif_pos hbig, hq]
  simp [hc]

theorem splitChunksTagged_hardZero (text : List Char) (hbig : 4800 < text.length)
    (hq : lastIndexOfLe text sepChars 4800 = some 0) :
    splitChunksTagged text =
      (text.take 4800, false) :: splitChunksTagged (text.drop 4800) := by
  rw [splitChunksTagged.eq_def, dif_pos hbig, hq]
  simp

theorem splitChunksTagged_hardNone (text : List Char) (hbig : 4800 < text.length)
    (hq : lastIndexOfLe text sepChars 4800 = none) :
    splitChunksTagged text =
      (text.take 4800, false) :: splitChunksTagged (text.drop 4800) := by
  rw [splitChunksTagged.eq_def, dif_pos hbig, hq]

theorem splitChunks_len_le (n : Nat) : ∀ (text : List Char), text.length ≤ n →
    ∀ c ∈ splitChunks text, c.length ≤ 4800 := by
  induction n with
  | zero =>
    intro text hlen c hc
    rw [splitChunks_small text (by omega)] at hc
    simp at hc
    subst hc
    omega
  | succ k ih =>
    intro text hlen c hc
    by_cases hbig : 4800 < text.length
    · cases hq : lastIndexOfLe text sepChars 4800 with
      | some cut =>
        by_cases hcut : 0 < cut
        · rw [splitChunks_cut text cut hbig hq hcut] at hc
          rcases List.mem_cons.mp hc with rfl | hmem
          · have hle := lastIndexOfLe_le text sepChars 4800 cut hq
            rw [List.length_take]
            omega
          · exact ih (text.drop (cut + 11)) (by rw [List.length_drop]; omega) c hmem
        · have hc0 : cut = 0 := by omega
          subst hc0
          rw [splitChunks_hardZero text hbig hq] at hc
          rcases List.mem_cons.mp hc with rfl | hmem
          · rw [List.length_take]
            omega
          · exact ih (text.drop 4800) (by rw [List.length_drop]; omega) c hmem
      | none =>
        rw [splitChunks_hardNone text hbig hq] at hc
        rcases List.mem_cons.mp hc with rfl | hmem
        · rw [List.length_take]
          omega
        · exact ih (text.drop 4800) (by rw [List.length_drop]; omega) c hmem
    · rw [splitChunks_small text hbig] at hc
      simp at hc
      subst hc
      omega

theorem reassemble_splitTagged (n : Nat) : ∀ (text : List Char), text.length ≤ n →
    reassemble (splitChunksTagged text) = text := by
  induction n with
  | zero =>
    intro text hlen
    rw [splitChunksTagged_small text (by omega)]
    simp [reassemble]
  | succ k ih =>
    intro text hlen
    by_cases hbig : 4800 < text.length
    · cases hq : lastIndexOfLe text sepChars 4800 with
      | some cut =>
        by_cases hcut : 0 < cut
        · rw [splitChunksTagged_cut text cut hbig hq hcut]
          have hih := ih (text.drop (cut + 11)) (by rw [List.length_drop]; omega)
          have hpre := lastIndexOfLe_isPrefixOf text sepChars 4800 cut hq
          have hdec := isPrefixOf_decomp sepChars (text.drop cut) hpre
          have hsep11 : sepChars.length = 11 := by decide
          rw [hsep11, List.drop_drop] at hdec
          simp [reassemble]
          rw [hih, ← hdec]
          exact List.take_append_drop cut text
        · have hc0 : cut = 0 := by omega
          subst hc0
          rw [splitChunksTagged_hardZero text hbig hq]
          have hih := ih (text.drop 4800) (by rw [List.length_drop]; omega)
          simp [reassemble]
          rw [hih]
          exact List.take_append_drop 4800 text
      | none =>
        rw [splitChunksTagged_hardNone text hbig hq]
        have hih := ih (text.drop 4800) (by rw [List.length_drop]; omega)
        simp [reassemble]
        rw [hih]
        exact List.take_append_drop 4800 text
    · rw [splitChunksTagged_small text hbig]
      simp [reassemble]

theorem splitTagged_map_fst (n : Nat) : ∀ (text : List Char), text.length ≤ n →
    (splitChunksTagged text).map Prod.fst = splitChunks text := by
  induction n with
  | zero =>
    intro text hlen
    rw [splitChunksTagged_small text (by omega), splitChunks_small text (by omega)]
    rfl
  | succ k ih =>
    intro text hlen
    by_cases hbig : 4800 < text.length
    · cases hq : lastIndexOfLe text sepChars 4800 with
      | some cut =>
        by_cases hcut : 0 < cut
        · rw [splitChunksTagged_cut text cut hbig hq hcut,
              splitChunks_cut text cut hbig hq hcut]
          simp only [List.map_cons]
          rw [ih (text.drop (cut + 11)) (by rw [List.length_drop]; omega)]
        · have hc0 : cut = 0 := by omega
          subst hc0
          rw [splitChunksTagged_hardZero text hbig hq,
              splitChunks_hardZero text hbig hq]
          simp only [List.map_cons]
          rw [ih (text.drop 4800) (by rw [List.length_drop]; omega)]
      | none =>
        rw [splitChunksTagged_hardNone text hbig hq,
            splitChunks_hardNone text hbig hq]
        simp only [List.map_cons]
        rw [ih (text.drop 4800) (by rw [List.length_drop]; omega)]
    · rw [splitChunksTagged_small text hbig, splitChunks_small text hbig]
      rfl

/-- C3 (amended): every chunk produced by the transport-chunking loop has
length at most 4800, concatenating the chunks while re-inserting the
separator at each boundary cut reconstructs the original text exactly, and
the tagged chunk sequence projects to the loop's chunk sequence. (Amended
from the claim: a boundary cut is taken only when the last separator
occurrence at or before 4800 starts at a positive index; an occurrence
starting at index 0 is treated like "not found" and hard-cut, per the
source guard `cut > 0`.) -/
theorem splitForTransport_props (text : List Char) :
    (∀ c ∈ splitChunks text, c.length ≤ 4800) ∧
    reassemble (splitChunksTagged text) = text ∧
    (splitChunksTagged text).map Prod.fst = splitChunks text :=
  ⟨splitChunks_len_le text.length text le_rfl,
   reassemble_splitTagged text.length text le_rfl,
   splitTagged_map_fst text.length text le_rfl⟩

/-- Witness for C3 (amended) at a concrete short text. -/
theorem splitForTransport_props_witness :
    reassemble (splitChunksTagged ("ab").data) = ("ab").data ∧
      (("ab").data).length ≤ 4800 :=
  ⟨(splitForTransport_props ("ab").data).2.1,
   (splitForTransport_props ("ab").data).1 ("ab").data
     (by rw [splitChunks_small _ (by decide)]; exact List.mem_singleton.mpr rfl)⟩

/-- A text whose only separator occurrence starts at index 0, used to
refute the claim's unconditional boundary-cut rule. -/
def zeroSepText : List Char := sepChars ++ List.replicate 4800 'a'

/-- C3 counterexample: on `zeroSepText` a separator is found in range
(`lastIndexOfLe` returns index 0), yet the loop hard-cuts at 4800 because
its guard is `cut > 0`; the first chunk is the 4800-character hard cut,
not the (empty) segment before the found boundary, contradicting the
claim that the loop cuts at the last separator boundary whenever one is
found at or before 4800. -/
theorem splitChunks_boundary_zero_hard_cut :
    lastIndexOfLe zeroSepText sepChars 4800 = some 0 ∧
    splitChunks zeroSepText = [zeroSepText.take 4800, zeroSepText.drop 4800] ∧
    zeroSepText.take 4800 ≠ ([] : List Char) := by
  have hsep11 : sepChars.length = 11 := by decide
  have hlen : zeroSepText.length = 4811 := by
    rw [zeroSepText, List.length_append, List.length_replicate, hsep11]
  have h0 : sepChars.isPrefixOf zeroSepText = true := isPrefixOf_self_append _ _
  have hno : ∀ i, 1 ≤ i → i ≤ 4800 →
      ¬ (sepChars.isPrefixOf (zeroSepText.drop i) = true) := by
    intro i h1 h2
    by_cases hsm : i ≤ 10
    · interval_cases i <;> decide
    · obtain ⟨j, rfl⟩ : ∃ j, i = 11 + j := ⟨i - 11, by omega⟩
      have hdrop : zeroSepText.drop (11 + j) = (List.replicate 4800 'a').drop j := by
        rw [zeroSepText, ← hsep11]
        rw [List.drop_append]
      rw [hdrop, List.drop_replicate]
      obtain ⟨m, hm⟩ : ∃ m, 4800 - j = m + 1 := ⟨4800 - j - 1, by omega⟩
      rw [hm, List.replicate_succ]
      have hsepc : sepChars = '\n' :: ("─────────\n").data := rfl
      rw [hsepc]
      simp [List.isPrefixOf]
  have hq := lastIndexOfLe_found_zero zeroSepText sepChars h0 4800 hno
  refine ⟨hq, ?_, ?_⟩
  · rw [splitChunks_hardZero zeroSepText (by omega) hq]
    rw [splitChunks_small (zeroSepText.drop 4800) (by rw [List.length_drop]; omega)]
  · intro hcontra
    have hlt : (zeroSepText.take 4800).length = 0 := by rw [hcontra]; rfl
    rw [List.length_take] at hlt
    omega

/-- C8 (amended): the daily-report timer callback re-arms the timer (the
rescheduling flag is produced) exactly when the chunked push of the
report succeeds; a push failure propagates out of the callback before the
rescheduling call, so the scheduler is NOT re-armed and only a process
restart resumes the loop. -/
theorem daily_report_push_failure_stops_loop {ε : Type} (logs : List LogEntry)
    (now : Int) (fmtTime : Int → String) (dateStr : String)
    (push : String → Except ε Unit) (e : ε) :
    (pushChunks push (splitForTransport (buildReport fmtTime
        (logs.filter (fun l => now - dailyWindowMs ≤ l.timestamp))
        ("📊 รายงานประจำวัน " ++ dateStr))) = Except.error e →
      dailyReportTick logs now fmtTime dateStr push = Except.error e) ∧
    (pushChunks push (splitForTransport (buildReport fmtTime
        (logs.filter (fun l => now - dailyWindowMs ≤ l.timestamp))
        ("📊 รายงานประจำวัน " ++ dateStr))) = Except.ok () →
      dailyReportTick logs now fmtTime dateStr push =
        Except.ok (buildReport fmtTime
          (logs.filter (fun l => now - dailyWindowMs ≤ l.timestamp))
          ("📊 รายงานประจำวัน " ++ dateStr), true)) := by
  constructor
  · intro hfail
    simp only [dailyReportTick]
    rw [hfail]
    rfl
  · intro hok
    simp only [dailyReportTick]
    rw [hok]
    rfl

/-- Witness for C8 (amended) with an always-failing push capability. -/
theorem daily_report_push_failure_stops_loop_witness :
    dailyReportTick ([] : List LogEntry) 0 (fun _ => "") "y"
      (fun _ => Except.error ()) = Except.error () :=
  (daily_report_push_failure_stops_loop [] 0 (fun _ => "") "y"
    (fun _ => Except.error ()) ()).1
    (by rw [splitForTransport, splitChunks_small _ (by decide)]; rfl)

/-- C8 counterexample: with a failing push capability the timer callback
aborts with the propagated error before `scheduleDailyReport()` is
reached, so the next day's timer is never armed — contradicting the claim
that a push failure does not prevent rescheduling. -/
theorem daily_report_push_failure_no_reschedule :
    dailyReportTick ([] : List LogEntry) 0 (fun _ => "") "x"
      (fun _ => Except.error ()) = Except.error () := by
  simp only [dailyReportTick]
  rw [splitForTransport, splitChunks_small _ (by decide)]
  rfl

end LineBot
